import Mathlib

/-!
Verification of the `irrealis_bayes` library (src/irrealis_bayes/__init__.py).

The library provides:
* `PMF`, a dict subclass mapping hypotheses/events to weights, with
  `total`, `normalizer`, `scale`, `normalize`, `copy`, `update`,
  `likelihood` (unimplemented in the base class) and `random`;
* `CDF`, a cumulative-distribution structure built from (event, weight)
  pairs, with `floor_index`, `percentile` and `percentiles`.

We embed the Python code shallowly:
* a `PMF` dict is a finite association list `List (α × ℚ)` (Python dict
  iteration order becomes list order; keys are unique in theorems that
  need it); exact rational arithmetic stands in for floats wherever no
  infinity/NaN arises;
* the IEEE-754 edge case of `normalize()` on an all-zero map (the source
  returns `float('inf')` from `normalizer` and multiplies `0 * inf = nan`)
  is embedded separately with a symbolic float type `PyFloat` carrying
  `inf`, `-inf` and `nan`;
* Python exceptions become an `Except Err` result with an `Err`
  constructor per Python exception type that the source can raise.
-/

/-- Python exception kinds raised by the source code. -/
inductive Err where
  | notImplementedError : Err
  | typeError : Err
  | valueError : Err
  | indexError : Err
  | zeroDivisionError : Err
deriving DecidableEq, Repr

/-!
## Symbolic Python floats

`PyFloat` models the subset of IEEE-754 double semantics the source
exercises: finite values (kept exact as rationals — no rounding is needed
for the degenerate-normalization claim), the two infinities, and NaN.
-/

/-- Symbolic Python float: an exact finite value, an infinity, or NaN. -/
inductive PyFloat where
  | num : ℚ → PyFloat
  | inf : PyFloat
  | ninf : PyFloat
  | nan : PyFloat
deriving DecidableEq, Repr

namespace PyFloat

/-- IEEE-754 addition on symbolic floats (used by Python `sum`). -/
def add : PyFloat → PyFloat → PyFloat
  | nan, _ => nan
  | _, nan => nan
  | inf, ninf => nan
  | ninf, inf => nan
  | inf, _ => inf
  | _, inf => inf
  | ninf, _ => ninf
  | _, ninf => ninf
  | num a, num b => num (a + b)

/-- IEEE-754 multiplication on symbolic floats; in particular
`0 * inf = nan`, the case normalizing an all-zero map hits. -/
def mul : PyFloat → PyFloat → PyFloat
  | nan, _ => nan
  | _, nan => nan
  | num a, num b => num (a * b)
  | num a, inf => if 0 < a then inf else if a < 0 then ninf else nan
  | inf, num a => if 0 < a then inf else if a < 0 then ninf else nan
  | num a, ninf => if 0 < a then ninf else if a < 0 then inf else nan
  | ninf, num a => if 0 < a then ninf else if a < 0 then inf else nan
  | inf, inf => inf
  | inf, ninf => ninf
  | ninf, inf => ninf
  | ninf, ninf => inf

/-- IEEE-754 division on symbolic floats. Python raises
`ZeroDivisionError` on a zero divisor of finite floats; the only division
in the source (`1./total` in `normalizer`) is guarded by the truthiness
test `if total`, so that case is unreachable there and we give it the
junk value `nan`. -/
def div : PyFloat → PyFloat → PyFloat
  | nan, _ => nan
  | _, nan => nan
  | num a, num b => if b = 0 then nan else num (a / b)
  | num _, inf => num 0
  | num _, ninf => num 0
  | inf, num b => if 0 ≤ b then inf else ninf
  | ninf, num b => if 0 ≤ b then ninf else inf
  | inf, inf => nan
  | inf, ninf => nan
  | ninf, inf => nan
  | ninf, ninf => nan

/-- Python truthiness of a float: `0.0` is falsy; every other float,
including `nan` and the infinities, is truthy. -/
def isTruthy : PyFloat → Bool
  | num a => decide (a ≠ 0)
  | _ => true

/-- Python `==` on floats: `nan` compares unequal to everything,
including itself (the self-inequality used to detect NaN). -/
def beq : PyFloat → PyFloat → Bool
  | nan, _ => false
  | _, nan => false
  | num a, num b => decide (a = b)
  | inf, inf => true
  | ninf, ninf => true
  | _, _ => false

end PyFloat

/-!
## PMF over exact rationals

Embedding of the `PMF` dict methods, weights as exact rationals.
A Python dict becomes an association list; `for key in self` becomes a
`List.map` over the entries.
-/

namespace IB.PMF

variable {α δ : Type}

/-- `PMF.total`: `sum(self.itervalues())`. -/
def total (p : List (α × ℚ)) : ℚ :=
  (p.map Prod.snd).sum

/-- `PMF.normalizer`: `1./total if total else float('inf')`. Over exact
rationals the `float('inf')` branch is not representable; Lean gives
`1 / 0 = 0` there, and every theorem below that reaches `normalizer`
assumes `total ≠ 0`, so the branch is never relied upon. The infinite
branch is modelled faithfully in `PMFF.normalizer` below. -/
def normalizer (p : List (α × ℚ)) : ℚ :=
  1 / total p

/-- `PMF.scale`: `for key in self: self[key] *= factor`. -/
def scale (factor : ℚ) (p : List (α × ℚ)) : List (α × ℚ) :=
  p.map (fun kv => (kv.1, kv.2 * factor))

/-- `PMF.normalize`: `self.scale(self.normalizer())`. -/
def normalize (p : List (α × ℚ)) : List (α × ℚ) :=
  scale (normalizer p) p

/-- `PMF.copy`: `self.__class__(self)` — a fresh object holding the same
entries. The heap model below (`copyH`) adds the object-identity side. -/
def copy (p : List (α × ℚ)) : List (α × ℚ) :=
  p

/-- `PMF.update` with an implemented, side-effect-free likelihood `L`:
`for event in self: self[event] *= self.likelihood(data, given=event)`
followed by `self.normalize()`. -/
def update (L : δ → α → ℚ) (data : δ) (p : List (α × ℚ)) : List (α × ℚ) :=
  normalize (p.map (fun kv => (kv.1, kv.2 * L data kv.1)))

/-- The base class `PMF.likelihood`: `raise NotImplementedError`. -/
def likelihood (_data : δ) (_given : α) : Except Err ℚ :=
  .error .notImplementedError

/-- The weight-revision loop of `PMF.update` when the likelihood call can
raise: multiplies each weight by its likelihood, propagating the first
exception. (Python mutates entries in place before the raise; the
partially mutated state is discarded with the exception here, which is
all the error-handling claims observe.) -/
def updateLoop (L : δ → α → Except Err ℚ) (data : δ) :
    List (α × ℚ) → Except Err (List (α × ℚ))
  | [] => .ok []
  | kv :: rest =>
    match L data kv.1 with
    | .error e => .error e
    | .ok lv =>
      match updateLoop L data rest with
      | .error e => .error e
      | .ok q => .ok ((kv.1, kv.2 * lv) :: q)

/-- `PMF.update` dispatching through a possibly-unimplemented
`likelihood`: revise every weight, then `normalize()`. -/
def updateE (L : δ → α → Except Err ℚ) (data : δ) (p : List (α × ℚ)) :
    Except Err (List (α × ℚ)) :=
  match updateLoop L data p with
  | .error e => .error e
  | .ok q => .ok (normalize q)

/-- The loop of `PMF.random` after the target has been drawn:
`total = 0; for event, prob in self.iteritems(): total += prob;
if total >= target: return event`. Falling off the loop returns
Python `None`, i.e. `none`. -/
def randomLoop (target : ℚ) (acc : ℚ) : List (α × ℚ) → Option α
  | [] => none
  | kv :: rest =>
    if target ≤ acc + kv.2 then some kv.1 else randomLoop target (acc + kv.2) rest

/-- `PMF.random`, with the drawn value `target = random.random()*self.total()`
made an explicit parameter (the only use of the random source). -/
def randomPick (p : List (α × ℚ)) (target : ℚ) : Option α :=
  randomLoop target 0 p

end IB.PMF

/-!
## PMF over symbolic floats

The same `total` / `normalizer` / `scale` / `normalize` methods, embedded
over `PyFloat` to capture the degenerate all-zero normalization
(`normalizer` returns `float('inf')`, and scaling turns every `0.0`
weight into `nan`).
-/

namespace IB.PMFF

variable {α : Type}

/-- `PMF.total` over floats: `sum(self.itervalues())`, Python `sum`
starting from `0`. -/
def total (p : List (α × PyFloat)) : PyFloat :=
  p.foldl (fun acc kv => acc.add kv.2) (PyFloat.num 0)

/-- `PMF.normalizer` over floats: `1./total if total else float('inf')`. -/
def normalizer (p : List (α × PyFloat)) : PyFloat :=
  let t := total p
  if t.isTruthy then (PyFloat.num 1).div t else PyFloat.inf

/-- `PMF.scale` over floats. -/
def scale (factor : PyFloat) (p : List (α × PyFloat)) : List (α × PyFloat) :=
  p.map (fun kv => (kv.1, kv.2.mul factor))

/-- `PMF.normalize` over floats: `self.scale(self.normalizer())`. -/
def normalize (p : List (α × PyFloat)) : List (α × PyFloat) :=
  scale (normalizer p) p

end IB.PMFF

/-!
## Object store

Python `PMF` objects are mutable and mutated in place; `copy()` returns a
fresh object. To state mutation-isolation claims we model a store of PMF
objects: a list of association lists, a reference being an index into it.
`copy` appends a new object holding the same entries; an in-place method
call rewrites the object at its reference.
-/

namespace IB.Store

variable {α δ : Type}

/-- Read the PMF object held at reference `r`. -/
def readH (h : List (List (α × ℚ))) (r : ℕ) : List (α × ℚ) :=
  h.getD r []

/-- Overwrite the PMF object held at reference `r`. -/
def writeH (h : List (List (α × ℚ))) (r : ℕ) (v : List (α × ℚ)) :
    List (List (α × ℚ)) :=
  h.set r v

/-- `PMF.copy`: `self.__class__(self)` allocates a new object (a fresh
reference) holding the same entries as the object at `r`. -/
def copyH (h : List (List (α × ℚ))) (r : ℕ) : List (List (α × ℚ)) × ℕ :=
  (h ++ [readH h r], h.length)

/-- One in-place mutating method call on a PMF object: `scale`,
`normalize` or `update` (with an implemented likelihood). -/
inductive Mutation (δ α : Type) where
  | scaleBy : ℚ → Mutation δ α
  | normalizeIt : Mutation δ α
  | updateBy : (δ → α → ℚ) → δ → Mutation δ α

/-- The pure effect of a mutating method on an object's entries. -/
def applyMut : Mutation δ α → List (α × ℚ) → List (α × ℚ)
  | .scaleBy f, p => IB.PMF.scale f p
  | .normalizeIt, p => IB.PMF.normalize p
  | .updateBy L d, p => IB.PMF.update L d p

/-- Perform a mutating method call on the object at reference `r`. -/
def mutateH (h : List (List (α × ℚ))) (r : ℕ) (m : Mutation δ α) :
    List (List (α × ℚ)) :=
  writeH h r (applyMut m (readH h r))

end IB.Store

/-!
## CDF

Embedding of the `CDF` class and its helpers (`dict_items_from_data`,
`sort_items`, `running_sum`) plus Python's `bisect.bisect` and Python
sequence subscription (negative indices wrap; out-of-range raises
`IndexError`).
-/

namespace IB

/-- Python subscription `l[i]` on a list of rationals, for the uses inside
`CDF.floor_index`: a negative index wraps around once. Out-of-range
access raises `IndexError` in Python; at the two call sites below the
index is always in range for a nonempty list (`index - 1 ∈ [-1, len-1]`),
so this total function returns a junk `0` there instead. -/
def pyGetQ (l : List ℚ) (i : Int) : ℚ :=
  if i < 0 then l.getD (l.length - (-i).toNat) 0 else l.getD i.toNat 0

/-- Python subscription `l[i]` on the events tuple: a negative index wraps
around once; an index out of `[-len, len)` raises `IndexError`. -/
def pyGetE {α : Type} (l : List α) (i : Int) : Except Err α :=
  let j : Int := if i < 0 then i + l.length else i
  if j < 0 then .error .indexError
  else
    match l.get? j.toNat with
    | some a => .ok a
    | none => .error .indexError

/-- The binary-search loop of Python `bisect.bisect` (= `bisect_right`):
`while lo < hi: mid = (lo+hi)//2; if x < a[mid]: hi = mid else: lo = mid+1`,
returning `lo`. -/
def bisectRightAux (a : List ℚ) (x : ℚ) (lo hi : ℕ) : ℕ :=
  if h : lo < hi then
    if x < a.getD ((lo + hi) / 2) 0 then bisectRightAux a x lo ((lo + hi) / 2)
    else bisectRightAux a x ((lo + hi) / 2 + 1) hi
  else lo
termination_by hi - lo
decreasing_by
  · omega
  · omega

/-- Python `bisect.bisect(a, x)`: insertion point to the right of any run
of elements equal to `x`. -/
def bisectRight (a : List ℚ) (x : ℚ) : ℕ :=
  bisectRightAux a x 0 a.length

/-- `running_sum`: generator yielding the running sums of a list, the
accumulator starting from `0` at the call site. -/
def running_sum (acc : ℚ) : List ℚ → List ℚ
  | [] => []
  | w :: ws => (acc + w) :: running_sum (acc + w) ws

/-- Insertion of one key-value pair into a Python dict under construction:
an existing key keeps its position and takes the new value, a new key is
appended. -/
def dictInsert {α : Type} [DecidableEq α] (acc : List (α × ℚ)) (kv : α × ℚ) :
    List (α × ℚ) :=
  if acc.any (fun x => decide (x.1 = kv.1)) then
    acc.map (fun x => if x.1 = kv.1 then (x.1, kv.2) else x)
  else acc ++ [kv]

/-- `dict_items_from_data`: `dict(data if data else []).items()`. A later
binding of the same key wins. CPython 2 exposes the items in an
implementation-defined hash order; the order is immaterial here because
`CDF.__init__` sorts the items immediately afterwards, so we keep
first-insertion order. -/
def dict_items_from_data {α : Type} [DecidableEq α] (data : List (α × ℚ)) :
    List (α × ℚ) :=
  data.foldl dictInsert []

/-- `sort_items` with the default arguments used by `CDF.__init__`
(`cmp=None`, `key=first_element`, `reverse=False`): stable sort of the
item pairs ascending by event. -/
def sort_items {α : Type} [LinearOrder α] (items : List (α × ℚ)) :
    List (α × ℚ) :=
  items.mergeSort (fun a b => decide (a.1 ≤ b.1))

/-- The `CDF` object state after construction: the sorted events tuple and
the parallel tuple of cumulative sums. -/
structure CDF (α : Type) where
  events : List α
  cumulative_distribution : List ℚ

/-- `CDF.__init__` with the default comparator arguments: convert `data`
to dict items, sort them by event, and unpack into the events tuple and
the running-sum tuple. The unpacking `self.events, probabilities =
zip(*items)` raises `ValueError` ("need more than 0 values to unpack")
when `items` is empty. -/
def CDF.init {α : Type} [DecidableEq α] [LinearOrder α]
    (data : List (α × ℚ)) : Except Err (CDF α) :=
  let items := sort_items (dict_items_from_data data)
  match items with
  | [] => .error .valueError
  | _ :: _ =>
    .ok ⟨items.map Prod.fst, running_sum 0 (items.map Prod.snd)⟩

/-- `CDF.floor_index`:
`index = bisect.bisect(self.cumulative_distribution, probability);
return index-1 if probability==self.cumulative_distribution[index-1] else index`.
The result is an `Int` because Python computes `index - 1` over the
integers (and the subscript `index - 1` may be the wrapping `-1`). -/
def CDF.floor_index {α : Type} (cdf : CDF α) (probability : ℚ) : Int :=
  let c := cdf.cumulative_distribution
  let index := bisectRight c probability
  if probability = pyGetQ c ((index : Int) - 1) then (index : Int) - 1
  else (index : Int)

/-- `CDF.percentile`: `self.events[self.floor_index(probability)]`, with
Python tuple subscription (raises `IndexError` out of range). -/
def CDF.percentile {α : Type} (cdf : CDF α) (probability : ℚ) :
    Except Err α :=
  pyGetE cdf.events (cdf.floor_index probability)

/-- `CDF.percentiles`: the tuple of `percentile(p)` for each requested
probability in order; the first `IndexError` propagates. -/
def CDF.percentiles {α : Type} (cdf : CDF α) (probabilities : List ℚ) :
    Except Err (List α) :=
  probabilities.mapM cdf.percentile

/-- Index search written exactly as the specification describes
`floor_index`'s upper-bound step: the smallest index whose element
exceeds `x`, or the length when no element does. Kept separate from the
code-side `bisectRight` so the two can be compared. -/
def leastGT (x : ℚ) : List ℚ → ℕ
  | [] => 0
  | y :: ys => if x < y then 0 else leastGT x ys + 1

/-- The specification's description of `floor_index`: with `idx` the
smallest index such that `cumulative[idx] > probability`, return `idx-1`
when `cumulative[idx-1]` equals `probability` exactly (meaningful only
for `idx > 0`), otherwise `idx`. -/
def floorIndexSpec (c : List ℚ) (p : ℚ) : Int :=
  let idx := leastGT p c
  if 0 < idx ∧ c.getD (idx - 1) 0 = p then (idx : Int) - 1 else (idx : Int)

end IB

/-!
## Supporting lemmas
-/

namespace IB.PMF

variable {α δ : Type}

/-- Total of a map whose entries were rebuilt as `(key, F entry)`. -/
theorem total_map_pair (p : List (α × ℚ)) (F : α × ℚ → ℚ) :
    total (p.map (fun kv => (kv.1, F kv))) = (p.map F).sum := by
  unfold total
  rw [List.map_map]
  rfl

/-- Scaling by a nonzero factor does not change the normalized map,
provided the total is nonzero. -/
theorem normalize_scale (q : List (α × ℚ)) (c : ℚ) (hc : c ≠ 0)
    (hT : total q ≠ 0) :
    normalize (scale c q) = normalize q := by
  have htot : total (scale c q) = total q * c := by
    unfold scale
    rw [total_map_pair]
    exact List.sum_map_mul_right q Prod.snd c
  unfold normalize
  rw [show normalizer (scale c q) = 1 / (total q * c) by
    unfold normalizer; rw [htot]]
  unfold normalizer scale
  rw [List.map_map]
  refine List.map_congr_left (fun kv _ => ?_)
  simp only [Function.comp_apply]
  refine Prod.ext rfl ?_
  show kv.2 * c * (1 / (total q * c)) = kv.2 * (1 / total q)
  field_simp
  ring

end IB.PMF

/-!
## C4: normalization with positive total
-/

/-- C4: for every PMF with non-negative weights and strictly positive
total, after `normalize()` the weights sum to exactly 1 (over the exact
rational arithmetic the claim appeals to), and `normalize()` is exactly
`scale(normalizer())` with `normalizer() = 1/total()`. -/
theorem C4_normalize_sums_to_one {α : Type} (p : List (α × ℚ))
    (hw : ∀ kv ∈ p, 0 ≤ kv.2) (ht : 0 < IB.PMF.total p) :
    IB.PMF.total (IB.PMF.normalize p) = 1 ∧
    IB.PMF.normalize p = IB.PMF.scale (IB.PMF.normalizer p) p ∧
    IB.PMF.normalizer p = 1 / IB.PMF.total p := by
  refine ⟨?_, rfl, rfl⟩
  have hne : IB.PMF.total p ≠ 0 := ne_of_gt ht
  show IB.PMF.total (IB.PMF.scale (IB.PMF.normalizer p) p) = 1
  unfold IB.PMF.scale IB.PMF.normalizer
  rw [IB.PMF.total_map_pair]
  rw [List.sum_map_mul_right p Prod.snd]
  show IB.PMF.total p * (1 / IB.PMF.total p) = 1
  field_simp

/-- Witness for C4 at the two-entry map `{0 ↦ 1, 1 ↦ 3}`. -/
theorem C4_witness :
    (∀ kv ∈ [((0:ℕ), (1:ℚ)), (1, 3)], 0 ≤ kv.2) ∧
    0 < IB.PMF.total [((0:ℕ), (1:ℚ)), (1, 3)] ∧
    IB.PMF.total (IB.PMF.normalize [((0:ℕ), (1:ℚ)), (1, 3)]) = 1 := by
  have h1 : ∀ kv ∈ [((0:ℕ), (1:ℚ)), (1, 3)], 0 ≤ kv.2 := by decide
  have h2 : 0 < IB.PMF.total [((0:ℕ), (1:ℚ)), (1, 3)] := by
    norm_num [IB.PMF.total]
  exact ⟨h1, h2, (C4_normalize_sums_to_one _ h1 h2).1⟩

/-!
## C5: normalizing an all-zero map yields NaN everywhere
-/

/-- Total of an all-zero float map is the float `0.0`. -/
theorem IB.PMFF.total_all_zero {α : Type} (p : List (α × PyFloat))
    (hz : ∀ kv ∈ p, kv.2 = PyFloat.num 0) :
    IB.PMFF.total p = PyFloat.num 0 := by
  unfold IB.PMFF.total
  induction p with
  | nil => rfl
  | cons kv rest ih =>
    have hk : kv.2 = PyFloat.num 0 := hz kv (List.mem_cons_self kv rest)
    have hstep : (PyFloat.num 0).add kv.2 = PyFloat.num 0 := by
      rw [hk]
      show PyFloat.num (0 + 0) = PyFloat.num 0
      norm_num
    rw [List.foldl_cons, hstep]
    exact ih (fun x hx => hz x (List.mem_cons_of_mem kv hx))

/-- C5: normalizing a non-empty all-zero map raises no error and turns
every weight into NaN (`normalizer()` returns the infinity sentinel and
`0.0 * inf = nan`), NaN being observable only through self-inequality. -/
theorem C5_all_zero_normalize_nan {α : Type} (p : List (α × PyFloat))
    (hne : p ≠ []) (hz : ∀ kv ∈ p, kv.2 = PyFloat.num 0) :
    IB.PMFF.normalize p = p.map (fun kv => (kv.1, PyFloat.nan)) ∧
    IB.PMFF.normalizer p = PyFloat.inf ∧
    PyFloat.beq PyFloat.nan PyFloat.nan = false := by
  have htot : IB.PMFF.total p = PyFloat.num 0 := IB.PMFF.total_all_zero p hz
  have hnorm : IB.PMFF.normalizer p = PyFloat.inf := by
    unfold IB.PMFF.normalizer
    rw [htot]
    simp [PyFloat.isTruthy]
  refine ⟨?_, hnorm, rfl⟩
  unfold IB.PMFF.normalize IB.PMFF.scale
  rw [hnorm]
  refine List.map_congr_left (fun kv hk => ?_)
  rw [hz kv hk]
  rfl

/-- Witness for C5 at the singleton all-zero map `{0 ↦ 0.0}`. -/
theorem C5_witness :
    IB.PMFF.normalize [((0:ℕ), PyFloat.num 0)] = [(0, PyFloat.nan)] ∧
    PyFloat.beq PyFloat.nan PyFloat.nan = false := by
  have h := C5_all_zero_normalize_nan [((0:ℕ), PyFloat.num 0)]
    (by decide) (by decide)
  exact ⟨h.1, h.2.2⟩

/-!
## C6: update with the unimplemented base likelihood
-/

/-- Amended C6: on every NON-EMPTY map, `update(data)` with the base
class's unimplemented `likelihood` raises `NotImplementedError` for any
data value. (On an empty map the revision loop never calls `likelihood`,
so no error is raised — see the counterexample.) -/
theorem C6_update_unimplemented {α δ : Type} (p : List (α × ℚ)) (d : δ)
    (hne : p ≠ []) :
    IB.PMF.updateE IB.PMF.likelihood d p = .error .notImplementedError := by
  cases p with
  | nil => exact absurd rfl hne
  | cons kv rest => rfl

/-- Witness for C6 on the singleton map `{7 ↦ 2}`. -/
theorem C6_witness :
    IB.PMF.updateE IB.PMF.likelihood (0 : ℕ) [((7:ℕ), (2:ℚ))] =
      .error .notImplementedError :=
  C6_update_unimplemented [((7:ℕ), (2:ℚ))] 0 (by decide)

/-- Counterexample to C6 as stated: on the EMPTY map, `update(data)`
returns normally (the loop body never runs, so the unimplemented
`likelihood` is never invoked, and `normalize()` on an empty dict scales
nothing), instead of failing with `NotImplementedError`. -/
theorem C6_counterexample :
    IB.PMF.updateE (α := ℕ) (δ := ℕ) IB.PMF.likelihood 0 [] = .ok [] := rfl

/-!
## C8: CDF construction from an empty source
-/

/-- C8: constructing a CDF from an empty source fails: the unpacking
`self.events, probabilities = zip(*items)` raises on zero items (Python
`ValueError`, the kind the specification labels RangeKind). -/
theorem C8_empty_init {α : Type} [DecidableEq α] [LinearOrder α] :
    IB.CDF.init ([] : List (α × ℚ)) = .error .valueError := by
  unfold IB.CDF.init IB.sort_items IB.dict_items_from_data
  simp

/-!
## C9: copy independence
-/

/-- C9: `copy()` allocates a fresh object with exactly the same entries,
and any subsequent in-place mutation (`scale`, `normalize`, `update`) of
the copy leaves the original object's entries unchanged, and vice versa. -/
theorem C9_copy_isolated {α δ : Type} (h : List (List (α × ℚ))) (r : ℕ)
    (m : IB.Store.Mutation δ α) (hr : r < h.length) :
    IB.Store.readH (IB.Store.copyH h r).1 (IB.Store.copyH h r).2 =
      IB.Store.readH h r ∧
    IB.Store.readH (IB.Store.mutateH (IB.Store.copyH h r).1
      (IB.Store.copyH h r).2 m) r = IB.Store.readH h r ∧
    IB.Store.readH (IB.Store.mutateH (IB.Store.copyH h r).1 r m)
      (IB.Store.copyH h r).2 =
      IB.Store.readH (IB.Store.copyH h r).1 (IB.Store.copyH h r).2 := by
  have hne : r ≠ h.length := Nat.ne_of_lt hr
  have hcopy : IB.Store.readH (IB.Store.copyH h r).1 (IB.Store.copyH h r).2 =
      IB.Store.readH h r := by
    show (h ++ [IB.Store.readH h r]).getD h.length [] = IB.Store.readH h r
    rw [List.getD_append_right h _ [] h.length (le_refl _), Nat.sub_self]
    rfl
  have hread_append : IB.Store.readH (IB.Store.copyH h r).1 r =
      IB.Store.readH h r := by
    show (h ++ [IB.Store.readH h r]).getD r [] = h.getD r []
    exact List.getD_append h _ [] r hr
  have hset : ∀ (hp : List (List (α × ℚ))) (i j : ℕ) (v : List (α × ℚ)),
      i ≠ j → IB.Store.readH (IB.Store.writeH hp i v) j = IB.Store.readH hp j := by
    intro hp i j v hij
    unfold IB.Store.readH IB.Store.writeH
    rw [List.getD_eq_getD_get?, List.get?_set_ne _ _ hij,
      ← List.getD_eq_getD_get?]
  refine ⟨hcopy, ?_, ?_⟩
  · have hne2 : (IB.Store.copyH h r).2 ≠ r := by
      show h.length ≠ r
      exact Ne.symm hne
    have h1 : IB.Store.readH
        (IB.Store.mutateH (IB.Store.copyH h r).1 (IB.Store.copyH h r).2 m) r =
        IB.Store.readH (IB.Store.copyH h r).1 r := hset _ _ _ _ hne2
    rw [h1]
    exact hread_append
  · have hne3 : r ≠ (IB.Store.copyH h r).2 := by
      show r ≠ h.length
      exact hne
    exact hset _ _ _ _ hne3

/-- Witness for C9: a one-object store, scaling the copy by 3. -/
theorem C9_witness :
    (0 < [[((0:ℕ), (2:ℚ))]].length) ∧
    IB.Store.readH
      (IB.Store.mutateH (IB.Store.copyH [[((0:ℕ), (2:ℚ))]] 0).1
        (IB.Store.copyH [[((0:ℕ), (2:ℚ))]] 0).2
        (IB.Store.Mutation.scaleBy (δ := ℕ) 3)) 0 =
      IB.Store.readH [[((0:ℕ), (2:ℚ))]] 0 := by
  refine ⟨by decide, ?_⟩
  exact (C9_copy_isolated [[((0:ℕ), (2:ℚ))]] 0
    (IB.Store.Mutation.scaleBy (δ := ℕ) 3) (by decide)).2.1

/-!
## C10 and C3: sampling
-/

/-- The sampling loop returns an entry's key as soon as the accumulated
weight of the remaining entries suffices to reach the target. -/
theorem IB.PMF.randomLoop_reaches {α : Type} (t : ℚ) :
    ∀ (l : List (α × ℚ)) (acc : ℚ), l ≠ [] →
      t ≤ acc + IB.PMF.total l →
      ∃ a, IB.PMF.randomLoop t acc l = some a ∧ a ∈ l.map Prod.fst := by
  intro l
  induction l with
  | nil => intro acc hne _; exact absurd rfl hne
  | cons kv rest ih =>
    intro acc _ hsum
    by_cases hc : t ≤ acc + kv.2
    · exact ⟨kv.1, by simp [IB.PMF.randomLoop, hc], by simp⟩
    · have htot : IB.PMF.total (kv :: rest) = kv.2 + IB.PMF.total rest := by
        simp [IB.PMF.total]
      have hrest_ne : rest ≠ [] := by
        rintro rfl
        rw [htot] at hsum
        simp [IB.PMF.total] at hsum
        push_neg at hc
        linarith
      have hsum2 : t ≤ (acc + kv.2) + IB.PMF.total rest := by
        rw [htot] at hsum
        linarith
      obtain ⟨a, ha, hmem⟩ := ih (acc + kv.2) hrest_ne hsum2
      exact ⟨a, by simp [IB.PMF.randomLoop, hc, ha], by simp [hmem]⟩

/-- C10: for every non-empty map with non-negative weights and every
target `t` with `0 ≤ t ≤ total()`, the loop of `random()` terminates by
returning some hypothesis of the map — it never falls off the end and
returns `None`. -/
theorem C10_random_returns {α : Type} (p : List (α × ℚ)) (t : ℚ)
    (hne : p ≠ []) (hw : ∀ kv ∈ p, 0 ≤ kv.2)
    (ht0 : 0 ≤ t) (ht : t ≤ IB.PMF.total p) :
    ∃ a, IB.PMF.randomPick p t = some a ∧ a ∈ p.map Prod.fst := by
  have := IB.PMF.randomLoop_reaches t p 0 hne (by rw [zero_add]; exact ht)
  exact this

/-- Witness for C10 at the map `{5 ↦ 2}` with target 1. -/
theorem C10_witness :
    (0:ℚ) ≤ 1 ∧ (1:ℚ) ≤ IB.PMF.total [((5:ℕ), (2:ℚ))] ∧
    ∃ a, IB.PMF.randomPick [((5:ℕ), (2:ℚ))] 1 = some a ∧
      a ∈ [((5:ℕ), (2:ℚ))].map Prod.fst := by
  have h1 : (1:ℚ) ≤ IB.PMF.total [((5:ℕ), (2:ℚ))] := by
    norm_num [IB.PMF.total]
  exact ⟨by norm_num, h1,
    C10_random_returns [((5:ℕ), (2:ℚ))] 1 (by decide) (by decide) (by norm_num) h1⟩

/-- When the accumulator is still strictly below the target, the entry
the loop returns carries strictly positive weight. -/
theorem IB.PMF.randomLoop_pos_weight {α : Type} (t : ℚ) (a : α) :
    ∀ (l : List (α × ℚ)) (acc : ℚ), acc < t →
      IB.PMF.randomLoop t acc l = some a →
      ∃ w, (a, w) ∈ l ∧ 0 < w := by
  intro l
  induction l with
  | nil => intro acc _ h; simp [IB.PMF.randomLoop] at h
  | cons kv rest ih =>
    intro acc hacc h
    by_cases hc : t ≤ acc + kv.2
    · have ha : kv.1 = a := by
        simpa [IB.PMF.randomLoop, hc] using h
      refine ⟨kv.2, ?_, by linarith⟩
      rw [← ha]
      exact List.mem_cons_self kv rest
    · have h2 : IB.PMF.randomLoop t (acc + kv.2) rest = some a := by
        simpa [IB.PMF.randomLoop, hc] using h
      push_neg at hc
      obtain ⟨w, hmem, hwpos⟩ := ih (acc + kv.2) hc h2
      exact ⟨w, List.mem_cons_of_mem kv hmem, hwpos⟩

/-- In a map whose keys are distinct, a key determines its weight. -/
theorem IB.PMF.weight_unique {α : Type} {p : List (α × ℚ)} {a : α} {w w' : ℚ}
    (hnodup : (p.map Prod.fst).Nodup) (h1 : (a, w) ∈ p) (h2 : (a, w') ∈ p) :
    w = w' := by
  induction p with
  | nil => simp at h1
  | cons kv rest ih =>
    rw [List.map_cons, List.nodup_cons] at hnodup
    rcases List.mem_cons.mp h1 with he1 | hm1
    · rcases List.mem_cons.mp h2 with he2 | hm2
      · have h12 : (a, w) = (a, w') := he1.trans he2.symm
        exact ((Prod.mk.injEq _ _ _ _).mp h12).2
      · exfalso
        apply hnodup.1
        have hk : kv.1 = a := by rw [← he1]
        rw [hk]
        exact List.mem_map_of_mem Prod.fst hm2
    · rcases List.mem_cons.mp h2 with he2 | hm2
      · exfalso
        apply hnodup.1
        have hk : kv.1 = a := by rw [← he2]
        rw [hk]
        exact List.mem_map_of_mem Prod.fst hm1
      · exact ih hnodup.2 hm1 hm2

/-- Amended C3: `random()` iterates the entries in map order accumulating
weight and returns the first hypothesis whose running sum is `>= t`; for
every STRICTLY POSITIVE target `t`, a hypothesis whose weight is zero is
never the returned value (over distinct keys). At `t = 0` the first
entry is returned even when its weight is zero — see the
counterexample. -/
theorem C3_no_zero_weight_for_pos_target {α : Type} (p : List (α × ℚ))
    (t : ℚ) (a : α) (hnodup : (p.map Prod.fst).Nodup) (ht : 0 < t)
    (hret : IB.PMF.randomPick p t = some a) :
    ∀ w, (a, w) ∈ p → 0 < w := by
  intro w hw
  obtain ⟨w0, hmem0, hpos0⟩ :=
    IB.PMF.randomLoop_pos_weight t a p 0 ht hret
  rw [IB.PMF.weight_unique hnodup hw hmem0]
  exact hpos0

/-- Witness for the amended C3: map `{3 ↦ 0, 4 ↦ 1}`, target `1`; the
returned hypothesis is `4`, whose weight is positive. -/
theorem C3_witness :
    IB.PMF.randomPick [((3:ℕ), (0:ℚ)), (4, 1)] 1 = some 4 ∧
    ∀ w, ((4:ℕ), w) ∈ [((3:ℕ), (0:ℚ)), (4, 1)] → 0 < w := by
  have hret : IB.PMF.randomPick [((3:ℕ), (0:ℚ)), (4, 1)] 1 = some 4 := by
    norm_num [IB.PMF.randomPick, IB.PMF.randomLoop]
  exact ⟨hret, C3_no_zero_weight_for_pos_target _ 1 4 (by decide)
    (by norm_num) hret⟩

/-- Counterexample to C3 as stated: with the map `{0 ↦ 0, 1 ↦ 1}` and the
drawn value `t = 0` — which lies in `[0, total()) = [0, 1)` and is
attainable since Python `random.random()` can return `0.0` — the loop
returns hypothesis `0`, whose weight is zero. -/
theorem C3_counterexample :
    IB.PMF.randomPick [((0:ℕ), (0:ℚ)), (1, 1)] 0 = some 0 ∧
    ((0:ℕ), (0:ℚ)) ∈ [((0:ℕ), (0:ℚ)), (1, 1)] ∧
    (0:ℚ) < IB.PMF.total [((0:ℕ), (0:ℚ)), (1, 1)] := by
  refine ⟨?_, by simp, by norm_num [IB.PMF.total]⟩
  norm_num [IB.PMF.randomPick, IB.PMF.randomLoop]

/-!
## C1: sequential updates compose
-/

/-- C1: with non-negative weights, a fixed side-effect-free likelihood
(non-negative, per the interface contract) and a non-degenerate final
posterior, `update(d1); update(d2)` and a single update with the product
likelihood `L(d1,h)*L(d2,h)` give the same map after `normalize()`. -/
theorem C1_update_composes {α δ : Type} (p : List (α × ℚ)) (L : δ → α → ℚ)
    (d1 d2 : δ) (hw : ∀ kv ∈ p, 0 ≤ kv.2) (hL : ∀ d a, 0 ≤ L d a)
    (hS2 : 0 < (p.map (fun kv => kv.2 * (L d1 kv.1 * L d2 kv.1))).sum) :
    IB.PMF.normalize (IB.PMF.update L d2 (IB.PMF.update L d1 p)) =
    IB.PMF.normalize (IB.PMF.update (fun _ a => L d1 a * L d2 a) d2 p) := by
  set S1 : ℚ := (p.map (fun kv => kv.2 * L d1 kv.1)).sum with hS1def
  set q : List (α × ℚ) :=
    p.map (fun kv => (kv.1, kv.2 * (L d1 kv.1 * L d2 kv.1))) with hq
  -- the final total is positive, hence so is the intermediate one
  have hterm : ∃ kv ∈ p, 0 < kv.2 * (L d1 kv.1 * L d2 kv.1) := by
    by_contra hcon
    push_neg at hcon
    have hzero : ∀ x ∈ p.map (fun kv => kv.2 * (L d1 kv.1 * L d2 kv.1)),
        x = 0 := by
      intro x hx
      obtain ⟨kv, hkv, rfl⟩ := List.mem_map.mp hx
      have hle := hcon kv hkv
      have hge : 0 ≤ kv.2 * (L d1 kv.1 * L d2 kv.1) :=
        mul_nonneg (hw kv hkv) (mul_nonneg (hL d1 kv.1) (hL d2 kv.1))
      linarith
    rw [List.sum_eq_zero hzero] at hS2
    exact lt_irrefl 0 hS2
  obtain ⟨kv0, hkv0, hpos0⟩ := hterm
  have h10 : 0 < kv0.2 * L d1 kv0.1 := by
    have hx : 0 ≤ kv0.2 * L d1 kv0.1 := mul_nonneg (hw kv0 hkv0) (hL d1 kv0.1)
    rcases hx.lt_or_eq with h | h
    · exact h
    · exfalso
      have hsplit : kv0.2 * (L d1 kv0.1 * L d2 kv0.1) =
          (kv0.2 * L d1 kv0.1) * L d2 kv0.1 := by ring
      rw [hsplit, ← h, zero_mul] at hpos0
      exact lt_irrefl 0 hpos0
  have hS1pos : 0 < S1 := by
    have hmem : kv0.2 * L d1 kv0.1 ∈ p.map (fun kv => kv.2 * L d1 kv.1) :=
      List.mem_map_of_mem _ hkv0
    have hnn : ∀ x ∈ p.map (fun kv => kv.2 * L d1 kv.1), 0 ≤ x := by
      intro x hx
      obtain ⟨kv, hkv, rfl⟩ := List.mem_map.mp hx
      exact mul_nonneg (hw kv hkv) (hL d1 kv.1)
    exact lt_of_lt_of_le h10 (List.single_le_sum hnn _ hmem)
  -- the first update, written as a scaling of the weight-revised map
  have h1 : IB.PMF.update L d1 p =
      IB.PMF.scale (1 / S1) (p.map (fun kv => (kv.1, kv.2 * L d1 kv.1))) := by
    unfold IB.PMF.update IB.PMF.normalize IB.PMF.normalizer
    rw [IB.PMF.total_map_pair]
  -- the second revision pass equals a scaling of the product-revised map
  have hmap : (IB.PMF.update L d1 p).map
      (fun kv => (kv.1, kv.2 * L d2 kv.1)) = IB.PMF.scale (1 / S1) q := by
    rw [h1, hq]
    unfold IB.PMF.scale
    rw [List.map_map, List.map_map, List.map_map]
    refine List.map_congr_left (fun kv _ => ?_)
    simp only [Function.comp_apply]
    refine Prod.ext rfl ?_
    show kv.2 * L d1 kv.1 * (1 / S1) * L d2 kv.1 =
      kv.2 * (L d1 kv.1 * L d2 kv.1) * (1 / S1)
    ring
  have hLHS : IB.PMF.update L d2 (IB.PMF.update L d1 p) =
      IB.PMF.normalize (IB.PMF.scale (1 / S1) q) := by
    show IB.PMF.normalize ((IB.PMF.update L d1 p).map
      (fun kv => (kv.1, kv.2 * L d2 kv.1))) = _
    rw [hmap]
  have hRHS : IB.PMF.update (fun _ a => L d1 a * L d2 a) d2 p =
      IB.PMF.normalize q := rfl
  rw [hLHS, hRHS]
  have htq : IB.PMF.total q ≠ 0 := by
    rw [hq, IB.PMF.total_map_pair]
    exact ne_of_gt hS2
  rw [IB.PMF.normalize_scale q (1 / S1)
    (one_div_ne_zero (ne_of_gt hS1pos)) htq]

/-- Witness for C1: map `{0 ↦ 1, 1 ↦ 2}`, constant likelihood 1. -/
theorem C1_witness :
    (0:ℚ) <
      ([((0:ℕ), (1:ℚ)), (1, 2)].map
        (fun kv => kv.2 * ((fun (_ : ℕ) (_ : ℕ) => (1:ℚ)) 0 kv.1 *
          (fun (_ : ℕ) (_ : ℕ) => (1:ℚ)) 1 kv.1))).sum ∧
    IB.PMF.normalize (IB.PMF.update (fun (_ : ℕ) (_ : ℕ) => (1:ℚ)) 1
        (IB.PMF.update (fun (_ : ℕ) (_ : ℕ) => (1:ℚ)) 0
          [((0:ℕ), (1:ℚ)), (1, 2)])) =
    IB.PMF.normalize (IB.PMF.update
      (fun (_ : ℕ) (a : ℕ) => (fun (_ : ℕ) (_ : ℕ) => (1:ℚ)) 0 a *
        (fun (_ : ℕ) (_ : ℕ) => (1:ℚ)) 1 a) 1 [((0:ℕ), (1:ℚ)), (1, 2)]) := by
  have hpos : (0:ℚ) <
      ([((0:ℕ), (1:ℚ)), (1, 2)].map
        (fun kv => kv.2 * ((fun (_ : ℕ) (_ : ℕ) => (1:ℚ)) 0 kv.1 *
          (fun (_ : ℕ) (_ : ℕ) => (1:ℚ)) 1 kv.1))).sum := by
    norm_num
  exact ⟨hpos, C1_update_composes [((0:ℕ), (1:ℚ)), (1, 2)]
    (fun _ _ => 1) 0 1 (by decide) (fun _ _ => by norm_num) hpos⟩

/-!
## CDF support lemmas
-/

namespace IB

/-- The spec-side search never exceeds the list length. -/
theorem leastGT_le_length (x : ℚ) (l : List ℚ) : leastGT x l ≤ l.length := by
  induction l with
  | nil => simp [leastGT]
  | cons y ys ih =>
    by_cases h : x < y
    · simp [leastGT, h]
    · simp only [leastGT, if_neg h, List.length_cons]
      omega

/-- Any index holding an element above `x` bounds the spec-side search. -/
theorem leastGT_le_of_gt (x : ℚ) (l : List ℚ) (i : ℕ) (hi : i < l.length)
    (hx : x < l.getD i 0) : leastGT x l ≤ i := by
  induction l generalizing i with
  | nil => simp at hi
  | cons y ys ih =>
    by_cases h : x < y
    · simp [leastGT, h]
    · cases i with
      | zero =>
        rw [List.getD_cons_zero] at hx
        exact absurd hx h
      | succ j =>
        simp only [leastGT, if_neg h]
        have := ih j (by simpa using hi) (by simpa using hx)
        omega

/-- When the spec-side search lands inside the list, the element there
exceeds `x`. -/
theorem leastGT_gt (x : ℚ) (l : List ℚ) (h : leastGT x l < l.length) :
    x < l.getD (leastGT x l) 0 := by
  induction l with
  | nil => simp at h
  | cons y ys ih =>
    by_cases hx : x < y
    · simpa [leastGT, hx] using hx
    · have heq : leastGT x (y :: ys) = leastGT x ys + 1 := by
        simp [leastGT, hx]
      rw [heq] at h ⊢
      rw [List.getD_cons_succ]
      exact ih (by simpa using h)

/-- Every element strictly before the spec-side search point is `≤ x`. -/
theorem leastGT_elem_le (x : ℚ) (l : List ℚ) (i : ℕ) (hi : i < leastGT x l) :
    l.getD i 0 ≤ x := by
  induction l generalizing i with
  | nil => simp [leastGT] at hi
  | cons y ys ih =>
    by_cases hx : x < y
    · simp [leastGT, hx] at hi
    · have heq : leastGT x (y :: ys) = leastGT x ys + 1 := by
        simp [leastGT, hx]
      rw [heq] at hi
      cases i with
      | zero =>
        rw [List.getD_cons_zero]
        exact le_of_not_lt hx
      | succ j =>
        rw [List.getD_cons_succ]
        exact ih j (by omega)

/-- When every element is at most `x`, the spec-side search returns the
length. -/
theorem leastGT_eq_length (x : ℚ) (l : List ℚ)
    (hall : ∀ i, i < l.length → l.getD i 0 ≤ x) : leastGT x l = l.length := by
  induction l with
  | nil => rfl
  | cons y ys ih =>
    have h0 : y ≤ x := by
      have := hall 0 (by simp)
      simpa using this
    have hny : ¬ x < y := not_lt.mpr h0
    simp only [leastGT, if_neg hny, List.length_cons]
    have := ih (fun i hi => by
      have := hall (i + 1) (by simpa using hi)
      simpa using this)
    omega

/-- The binary search of `bisect.bisect` computes the spec-side least
index on every nondecreasing list. -/
theorem bisectRightAux_eq (a : List ℚ) (x : ℚ)
    (hmono : ∀ i j, i ≤ j → j < a.length → a.getD i 0 ≤ a.getD j 0) :
    ∀ (n lo hi : ℕ), hi - lo ≤ n → lo ≤ leastGT x a → leastGT x a ≤ hi →
      hi ≤ a.length → bisectRightAux a x lo hi = leastGT x a := by
  intro n
  induction n with
  | zero =>
    intro lo hi hfuel hlo hhi _
    rw [bisectRightAux, dif_neg (by omega)]
    omega
  | succ n ih =>
    intro lo hi hfuel hlo hhi hlen
    rw [bisectRightAux]
    by_cases hlh : lo < hi
    · rw [dif_pos hlh]
      by_cases hx : x < a.getD ((lo + hi) / 2) 0
      · rw [if_pos hx]
        have hrle : leastGT x a ≤ (lo + hi) / 2 :=
          leastGT_le_of_gt x a _ (by omega) hx
        exact ih lo ((lo + hi) / 2) (by omega) hlo hrle (by omega)
      · rw [if_neg hx]
        have hmidr : (lo + hi) / 2 < leastGT x a := by
          by_contra hcon
          push_neg at hcon
          have hrlen : leastGT x a < a.length := by omega
          have hgt : x < a.getD (leastGT x a) 0 := leastGT_gt x a hrlen
          have hle2 : a.getD (leastGT x a) 0 ≤ a.getD ((lo + hi) / 2) 0 :=
            hmono _ _ hcon (by omega)
          push_neg at hx
          linarith
        exact ih ((lo + hi) / 2 + 1) hi (by omega) (by omega) hhi hlen
    · rw [dif_neg hlh]
      omega

/-- `bisect.bisect` equals the spec-side least index on a nondecreasing
list. -/
theorem bisectRight_eq_leastGT (a : List ℚ) (x : ℚ)
    (hmono : ∀ i j, i ≤ j → j < a.length → a.getD i 0 ≤ a.getD j 0) :
    bisectRight a x = leastGT x a := by
  unfold bisectRight
  exact bisectRightAux_eq a x hmono a.length 0 a.length (by omega)
    (Nat.zero_le _) (leastGT_le_length x a) (le_refl _)

/-- The running-sum list has the length of its source. -/
theorem running_sum_length (acc : ℚ) (l : List ℚ) :
    (running_sum acc l).length = l.length := by
  induction l generalizing acc with
  | nil => rfl
  | cons w ws ih => simp [running_sum, ih]

/-- Entry `i` of the running sums is the accumulator plus the sum of the
first `i+1` source weights. -/
theorem running_sum_getD (l : List ℚ) :
    ∀ (acc : ℚ) (i : ℕ), i < l.length →
      (running_sum acc l).getD i 0 = acc + (l.take (i + 1)).sum := by
  induction l with
  | nil => intro acc i hi; simp at hi
  | cons w ws ih =>
    intro acc i hi
    cases i with
    | zero =>
      simp [running_sum, List.take_succ_cons]
    | succ j =>
      rw [running_sum, List.getD_cons_succ, ih (acc + w) j (by simpa using hi)]
      rw [List.take_succ_cons, List.sum_cons]
      ring

/-- Prefix sums of a list of non-negative weights are monotone in the
prefix length. -/
theorem sum_take_mono (l : List ℚ) (hw : ∀ w ∈ l, 0 ≤ w) :
    ∀ {i j : ℕ}, i ≤ j → (l.take i).sum ≤ (l.take j).sum := by
  have hstep : ∀ n, (l.take n).sum ≤ (l.take (n + 1)).sum := by
    intro n
    rw [List.take_succ, List.sum_append]
    have hnn : 0 ≤ (l[n]?.toList).sum := by
      cases hg : l[n]? with
      | none => simp
      | some w =>
        have hmem : w ∈ l := List.getElem?_mem hg
        simp [hw w hmem]
    linarith
  intro i j hij
  exact monotone_nat_of_le_succ (f := fun n => (l.take n).sum) hstep hij

/-- Cumulative sums of non-negative weights are nondecreasing. -/
theorem running_sum_mono (ws : List ℚ) (hw : ∀ w ∈ ws, 0 ≤ w) :
    ∀ i j, i ≤ j → j < (running_sum 0 ws).length →
      (running_sum 0 ws).getD i 0 ≤ (running_sum 0 ws).getD j 0 := by
  intro i j hij hj
  rw [running_sum_length] at hj
  rw [running_sum_getD ws 0 i (lt_of_le_of_lt hij hj),
    running_sum_getD ws 0 j hj]
  simp only [zero_add]
  exact sum_take_mono ws hw (by omega)

/-- The last cumulative sum is the total weight. -/
theorem running_sum_last (ws : List ℚ) (hne : ws ≠ []) :
    (running_sum 0 ws).getD (ws.length - 1) 0 = ws.sum := by
  have hlen : 0 < ws.length := List.length_pos.mpr hne
  rw [running_sum_getD ws 0 (ws.length - 1) (by omega),
    show ws.length - 1 + 1 = ws.length from by omega, List.take_length]
  ring

/-- Every cumulative sum is at most the total weight. -/
theorem running_sum_le_sum (ws : List ℚ) (hw : ∀ w ∈ ws, 0 ≤ w)
    (i : ℕ) (hi : i < ws.length) :
    (running_sum 0 ws).getD i 0 ≤ ws.sum := by
  rw [running_sum_getD ws 0 i hi, zero_add]
  have h1 : (ws.take (i + 1)).sum ≤ (ws.take ws.length).sum :=
    sum_take_mono ws hw (by omega)
  rwa [List.take_length] at h1

/-- Every cumulative sum of non-negative weights is non-negative. -/
theorem running_sum_nonneg (ws : List ℚ) (hw : ∀ w ∈ ws, 0 ≤ w)
    (i : ℕ) (hi : i < ws.length) :
    0 ≤ (running_sum 0 ws).getD i 0 := by
  rw [running_sum_getD ws 0 i hi, zero_add]
  exact List.sum_nonneg (fun x hx => hw x (List.take_subset _ _ hx))

end IB

namespace IB

/-- Core comparison: on a non-empty nondecreasing cumulative list, the
code's `floor_index` (upper-bound binary search plus the Python
`c[index-1]` subscript, which wraps to the last element when
`index = 0`) agrees with the specification's formula for every
probability. The wrap-around never changes the outcome: `index = 0`
forces `p < c[0] ≤ c[-1]`, so the equality test fails in both readings. -/
theorem floor_index_eq_spec {α : Type} (ev : List α) (c : List ℚ) (p : ℚ)
    (hne : c ≠ [])
    (hmono : ∀ i j, i ≤ j → j < c.length → c.getD i 0 ≤ c.getD j 0) :
    CDF.floor_index ⟨ev, c⟩ p = floorIndexSpec c p := by
  have hlen : 0 < c.length := List.length_pos.mpr hne
  have hbr : bisectRight c p = leastGT p c := bisectRight_eq_leastGT c p hmono
  have hspec : floorIndexSpec c p =
      if 0 < leastGT p c ∧ c.getD (leastGT p c - 1) 0 = p
      then (leastGT p c : Int) - 1 else (leastGT p c : Int) := rfl
  have hcode : CDF.floor_index ⟨ev, c⟩ p =
      if p = pyGetQ c ((leastGT p c : Int) - 1)
      then (leastGT p c : Int) - 1 else (leastGT p c : Int) := by
    show (if p = pyGetQ c ((bisectRight c p : Int) - 1)
        then (bisectRight c p : Int) - 1 else (bisectRight c p : Int)) = _
    rw [hbr]
  rw [hcode, hspec]
  rcases Nat.eq_zero_or_pos (leastGT p c) with hr0 | hrpos
  · rw [hr0]
    have hfirst : p < c.getD 0 0 := by
      have := leastGT_gt p c (by omega)
      rwa [hr0] at this
    have hlast : c.getD 0 0 ≤ c.getD (c.length - 1) 0 :=
      hmono 0 (c.length - 1) (by omega) (by omega)
    have hwrap : pyGetQ c (((0:ℕ) : Int) - 1) = c.getD (c.length - 1) 0 := by
      unfold pyGetQ
      norm_num
    rw [hwrap]
    rw [if_neg (by intro he; rw [he] at hfirst; linarith)]
    rw [if_neg (by intro hand; exact absurd hand.1 (lt_irrefl 0))]
  · have hposi : ¬ ((leastGT p c : Int) - 1 < 0) := by omega
    have htn : ((leastGT p c : Int) - 1).toNat = leastGT p c - 1 := by omega
    have hget : pyGetQ c ((leastGT p c : Int) - 1) =
        c.getD (leastGT p c - 1) 0 := by
      unfold pyGetQ
      rw [if_neg hposi, htn]
    rw [hget]
    by_cases hc : p = c.getD (leastGT p c - 1) 0
    · rw [if_pos hc, if_pos ⟨hrpos, hc.symm⟩]
    · rw [if_neg hc, if_neg (fun hand => hc hand.2.symm)]

/-- The weights `[1,1,1]` accumulate to `[1,2,3]`. -/
theorem rs111 : running_sum 0 [1, 1, 1] = ([1, 2, 3] : List ℚ) := by
  norm_num [running_sum]

/-- The concrete cumulative list `[1,2,3]` is nondecreasing. -/
theorem mono123 : ∀ i j, i ≤ j → j < ([1, 2, 3] : List ℚ).length →
    ([1, 2, 3] : List ℚ).getD i 0 ≤ ([1, 2, 3] : List ℚ).getD j 0 := by
  intro i j hij hj
  have hlen : j < (running_sum 0 [1, 1, 1] : List ℚ).length := by
    rw [rs111]; exact hj
  have := running_sum_mono [1, 1, 1] (by decide) i j hij hlen
  rwa [rs111] at this

/-- Construction of the boundary-test CDF: weights 1 on the ordered
events 10, 20, 30 give cumulative sums `[1,2,3]`. -/
theorem cdf3_init : CDF.init [((10:ℕ), (1:ℚ)), (20, 1), (30, 1)] =
    .ok ⟨[10, 20, 30], [1, 2, 3]⟩ := by
  have hitems : dict_items_from_data [((10:ℕ), (1:ℚ)), (20, 1), (30, 1)] =
      [((10:ℕ), (1:ℚ)), (20, 1), (30, 1)] := by
    simp [dict_items_from_data, dictInsert]
  have hsorted : sort_items [((10:ℕ), (1:ℚ)), (20, 1), (30, 1)] =
      [((10:ℕ), (1:ℚ)), (20, 1), (30, 1)] := by
    unfold sort_items
    apply List.mergeSort_of_sorted
    decide
  simp only [CDF.init, hitems, hsorted, List.map_cons, List.map_nil]
  norm_num [running_sum]

/-- The boundary query: `floor_index(2)` on cumulative `[1,2,3]` is 1
(the exact boundary resolves to the lower index). -/
theorem cdf3_floor_two :
    CDF.floor_index (⟨[10, 20, 30], [1, 2, 3]⟩ : CDF ℕ) 2 = 1 := by
  rw [floor_index_eq_spec [10, 20, 30] [1, 2, 3] 2 (by decide) mono123]
  have hleast : leastGT 2 ([1, 2, 3] : List ℚ) = 2 := by
    norm_num [leastGT]
  unfold floorIndexSpec
  rw [hleast]
  norm_num

end IB

/-!
## C2: floor_index tie-break semantics
-/

/-- C2: on every CDF whose cumulative sums come from non-negative weights,
`floor_index(p)` for `p` in range equals the spec's formula: with `idx`
the smallest index whose cumulative sum exceeds `p`, it is `idx-1` when
`cumulative[idx-1]` equals `p` exactly, else `idx`; in particular on
weights `[1,1,1]` over events `(10,20,30)`, `percentile(2)` returns the
middle event 20. -/
theorem C2_floor_index_matches_spec :
    (∀ (α : Type) (ev : List α) (ws : List ℚ) (p : ℚ),
      (∀ w ∈ ws, 0 ≤ w) → ws ≠ [] → 0 ≤ p → p ≤ ws.sum →
      IB.CDF.floor_index ⟨ev, IB.running_sum 0 ws⟩ p =
        IB.floorIndexSpec (IB.running_sum 0 ws) p) ∧
    IB.CDF.init [((10:ℕ), (1:ℚ)), (20, 1), (30, 1)] =
      .ok ⟨[10, 20, 30], [1, 2, 3]⟩ ∧
    IB.CDF.percentile (⟨[10, 20, 30], [1, 2, 3]⟩ : IB.CDF ℕ) 2 = .ok 20 := by
  refine ⟨?_, IB.cdf3_init, ?_⟩
  · intro α ev ws p hw hne _ _
    have hcne : IB.running_sum 0 ws ≠ [] := by
      intro hnil
      have := IB.running_sum_length 0 ws
      rw [hnil] at this
      exact hne (List.eq_nil_of_length_eq_zero this.symm)
    exact IB.floor_index_eq_spec ev (IB.running_sum 0 ws) p hcne
      (IB.running_sum_mono ws hw)
  · unfold IB.CDF.percentile
    rw [IB.cdf3_floor_two]
    unfold IB.pyGetE
    norm_num

/-- Witness for C2 on the singleton weight list `[2]` at probability 1. -/
theorem C2_witness :
    (∀ w ∈ [(2:ℚ)], 0 ≤ w) ∧ ((0:ℚ) ≤ 1) ∧ ((1:ℚ) ≤ [(2:ℚ)].sum) ∧
    IB.CDF.floor_index ⟨[(5:ℕ)], IB.running_sum 0 [(2:ℚ)]⟩ 1 =
      IB.floorIndexSpec (IB.running_sum 0 [(2:ℚ)]) 1 := by
  refine ⟨by decide, by norm_num, by norm_num, ?_⟩
  exact C2_floor_index_matches_spec.1 ℕ [5] [2] 1 (by decide) (by decide)
    (by norm_num) (by norm_num)

namespace IB

/-- Python subscription at index 0 of a non-empty tuple returns its head. -/
theorem pyGetE_zero {α : Type} (a : α) (l : List α) :
    pyGetE (a :: l) 0 = .ok a := by
  simp [pyGetE]

/-- Python subscription past the end of the tuple raises `IndexError`. -/
theorem pyGetE_oob {α : Type} (l : List α) (i : Int) (hi : 0 ≤ i)
    (hlen : (l.length : Int) ≤ i) : pyGetE l i = .error .indexError := by
  have hni : ¬ i < 0 := by omega
  simp only [pyGetE]
  rw [if_neg hni, if_neg hni]
  rw [List.get?_eq_none.mpr (by omega)]

/-- `percentiles` on a single probability is `percentile` in a list. -/
theorem percentiles_single {α : Type} (cdf : CDF α) (p : ℚ) :
    CDF.percentiles cdf [p] =
      match CDF.percentile cdf p with
      | .ok a => .ok [a]
      | .error e => .error e := by
  unfold CDF.percentiles
  rw [List.mapM_cons, List.mapM_nil]
  cases h : CDF.percentile cdf p <;> simp [h, Except.bind]

end IB

/-!
## C7: out-of-range percentile queries
-/

/-- Amended C7: for a CDF built from non-negative weights, a probability
STRICTLY ABOVE the total weight makes `percentile` and `percentiles`
fail with an `IndexError` (the spec's RangeKind) — while `floor_index`
itself does not fail: it returns the out-of-range index `len`. A
probability BELOW 0, by contrast, makes no query fail: `floor_index`
returns 0 and `percentile` returns the first event. -/
theorem C7_out_of_range_queries {α : Type} (ev : List α) (ws : List ℚ)
    (p : ℚ) (hw : ∀ w ∈ ws, 0 ≤ w) (hne : ws ≠ [])
    (hlen : ev.length = ws.length) :
    (ws.sum < p →
      IB.CDF.floor_index ⟨ev, IB.running_sum 0 ws⟩ p = (ws.length : Int) ∧
      IB.CDF.percentile ⟨ev, IB.running_sum 0 ws⟩ p = .error .indexError ∧
      IB.CDF.percentiles ⟨ev, IB.running_sum 0 ws⟩ [p] =
        .error .indexError) ∧
    (p < 0 →
      IB.CDF.floor_index ⟨ev, IB.running_sum 0 ws⟩ p = 0 ∧
      ∃ a, ev.head? = some a ∧
        IB.CDF.percentile ⟨ev, IB.running_sum 0 ws⟩ p = .ok a ∧
        IB.CDF.percentiles ⟨ev, IB.running_sum 0 ws⟩ [p] = .ok [a]) := by
  set c := IB.running_sum 0 ws with hcdef
  have hwlen : 0 < ws.length := List.length_pos.mpr hne
  have hlc : c.length = ws.length := IB.running_sum_length 0 ws
  have hcne : c ≠ [] := by
    intro hnil
    rw [hnil] at hlc
    simp at hlc
    omega
  have hmono := IB.running_sum_mono ws hw
  have hlastv : c.getD (c.length - 1) 0 = ws.sum := by
    rw [hlc]
    exact IB.running_sum_last ws hne
  constructor
  · intro hgt
    have hall : ∀ i, i < c.length → c.getD i 0 ≤ p := by
      intro i hi
      have h1 : c.getD i 0 ≤ ws.sum := IB.running_sum_le_sum ws hw i (by omega)
      linarith
    have hbr : IB.bisectRight c p = c.length := by
      rw [IB.bisectRight_eq_leastGT c p hmono,
        IB.leastGT_eq_length p c hall]
    have hfi : IB.CDF.floor_index ⟨ev, c⟩ p = (ws.length : Int) := by
      show (if p = IB.pyGetQ c ((IB.bisectRight c p : Int) - 1)
          then (IB.bisectRight c p : Int) - 1
          else (IB.bisectRight c p : Int)) = _
      rw [hbr]
      have hgq : IB.pyGetQ c ((c.length : Int) - 1) =
          c.getD (c.length - 1) 0 := by
        unfold IB.pyGetQ
        have hnn : ¬ ((c.length : Int) - 1 < 0) := by
          have : 0 < c.length := by omega
          omega
        rw [if_neg hnn]
        congr 1
        omega
      rw [hgq, hlastv]
      rw [if_neg (by intro he; rw [he] at hgt; linarith)]
      exact congrArg (fun n : ℕ => (n : Int)) hlc
    have hperc : IB.CDF.percentile ⟨ev, c⟩ p = .error .indexError := by
      unfold IB.CDF.percentile
      rw [hfi]
      exact IB.pyGetE_oob ev _ (by omega) (by rw [hlen])
    refine ⟨hfi, hperc, ?_⟩
    rw [IB.percentiles_single, hperc]
  · intro hlt
    have hfirstpos : 0 ≤ c.getD 0 0 := IB.running_sum_nonneg ws hw 0 (by omega)
    have hleast0 : IB.leastGT p c = 0 := by
      cases hcc : c with
      | nil => exact absurd hcc hcne
      | cons y ys =>
        have hy : p < y := by
          rw [hcc, List.getD_cons_zero] at hfirstpos
          linarith
        simp [IB.leastGT, hy]
    have hbr0 : IB.bisectRight c p = 0 := by
      rw [IB.bisectRight_eq_leastGT c p hmono, hleast0]
    have hsumnn : 0 ≤ ws.sum := List.sum_nonneg hw
    have hfi0 : IB.CDF.floor_index ⟨ev, c⟩ p = 0 := by
      show (if p = IB.pyGetQ c ((IB.bisectRight c p : Int) - 1)
          then (IB.bisectRight c p : Int) - 1
          else (IB.bisectRight c p : Int)) = _
      rw [hbr0]
      have hwrap : IB.pyGetQ c (((0:ℕ) : Int) - 1) =
          c.getD (c.length - 1) 0 := by
        unfold IB.pyGetQ
        norm_num
      rw [hwrap, hlastv]
      rw [if_neg (by intro he; rw [he] at hlt; linarith)]
      norm_num
    obtain ⟨a, ev2, rfl⟩ : ∃ a t, ev = a :: t := by
      cases ev with
      | nil =>
        simp at hlen
        omega
      | cons a t => exact ⟨a, t, rfl⟩
    have hperc : IB.CDF.percentile ⟨a :: ev2, c⟩ p = .ok a := by
      unfold IB.CDF.percentile
      rw [hfi0]
      exact IB.pyGetE_zero a ev2
    refine ⟨hfi0, a, rfl, hperc, ?_⟩
    rw [IB.percentiles_single, hperc]

/-- Counterexample to C7 as stated: on the CDF of weights `[1,1,1]` over
events `(10,20,30)` (total weight 3), the probability `-1` is strictly
outside `[0, 3]`, yet `percentile(-1)` does NOT fail — it returns the
first event 10 (and `percentiles(-1)` returns `[10]`); moreover for the
out-of-range probability `4`, `floor_index(4)` itself does not fail
either — it returns the index 3. -/
theorem C7_counterexample :
    IB.CDF.init [((10:ℕ), (1:ℚ)), (20, 1), (30, 1)] =
      .ok ⟨[10, 20, 30], [1, 2, 3]⟩ ∧
    ((-1:ℚ) < 0) ∧
    IB.CDF.percentile (⟨[10, 20, 30], [1, 2, 3]⟩ : IB.CDF ℕ) (-1) =
      .ok 10 ∧
    IB.CDF.percentiles (⟨[10, 20, 30], [1, 2, 3]⟩ : IB.CDF ℕ) [-1] =
      .ok [10] ∧
    ((3:ℚ) < 4) ∧
    IB.CDF.floor_index (⟨[10, 20, 30], [1, 2, 3]⟩ : IB.CDF ℕ) 4 = 3 := by
  have hfim1 : IB.CDF.floor_index
      (⟨[10, 20, 30], [1, 2, 3]⟩ : IB.CDF ℕ) (-1) = 0 := by
    rw [IB.floor_index_eq_spec [10, 20, 30] [1, 2, 3] (-1) (by decide)
      IB.mono123]
    norm_num [IB.floorIndexSpec, IB.leastGT]
  have hperc : IB.CDF.percentile
      (⟨[10, 20, 30], [1, 2, 3]⟩ : IB.CDF ℕ) (-1) = .ok 10 := by
    unfold IB.CDF.percentile
    rw [hfim1]
    exact IB.pyGetE_zero 10 [20, 30]
  refine ⟨IB.cdf3_init, by norm_num, hperc, ?_, by norm_num, ?_⟩
  · rw [IB.percentiles_single, hperc]
  · rw [IB.floor_index_eq_spec [10, 20, 30] [1, 2, 3] 4 (by decide)
      IB.mono123]
    norm_num [IB.floorIndexSpec, IB.leastGT]

/-- Witness for the amended C7: singleton CDF (event 9, weight 2), the
probability 5 exceeds the total weight 2. -/
theorem C7_witness :
    ((2:ℚ) < 5) ∧
    IB.CDF.floor_index ⟨[(9:ℕ)], IB.running_sum 0 [(2:ℚ)]⟩ 5 = 1 ∧
    IB.CDF.percentile ⟨[(9:ℕ)], IB.running_sum 0 [(2:ℚ)]⟩ 5 =
      .error .indexError := by
  have hs : ([(2:ℚ)]).sum < 5 := by norm_num
  have h := (C7_out_of_range_queries [(9:ℕ)] [(2:ℚ)] 5 (by decide)
    (by decide) (by decide)).1 hs
  exact ⟨by norm_num, h.1, h.2.1⟩

/-- Witness for C8 at the concrete hypothesis type ℕ. -/
theorem C8_witness : IB.CDF.init ([] : List (ℕ × ℚ)) = .error .valueError :=
  C8_empty_init
